import Mathlib

/-!
Verification development for the `statiki` crate: fixed-capacity containers
(`Array` in src/array.rs, the atomic `RingBuffer` in src/ring.rs, the
macro-generated plain `RingBuffer` in src/ring_buffer.rs).

Machine integers (`usize`) are modelled as `Nat` with explicit wrapping at
`2 ^ 64`; uninitialized memory cells (`MaybeUninit<T>`) are modelled as
`Option T` with `none` for uninitialized; cell contents are never erased by
reads or destructor calls, mirroring the fact that `ptr::read` and
`drop_in_place` leave the bytes in place.
-/

/-- Word size of the target machine: `usize` arithmetic wraps at `2 ^ 64`. -/
def USIZE : Nat := 18446744073709551616

theorem USIZE_eq : USIZE = 2 ^ 64 := by decide

/-- `a.wrapping_add(1)` on `usize` (for `a < USIZE`). -/
def wadd (a : Nat) : Nat := (a + 1) % USIZE

/-- `a.wrapping_sub(b)` on `usize` (for `a, b < USIZE`). -/
def wsub (a b : Nat) : Nat := (a + USIZE - b) % USIZE

theorem wsub_mod (R W : Nat) (h : R ≤ W) (hd : W - R < USIZE) :
    wsub (W % USIZE) (R % USIZE) = W - R := by
  unfold wsub USIZE at *
  omega

theorem wadd_mod (R : Nat) : wadd (R % USIZE) = (R + 1) % USIZE := by
  unfold wadd USIZE
  omega

theorem mod_usize_inj (R W : Nat) (h : R ≤ W) (hd : W - R < USIZE) :
    (W % USIZE = R % USIZE ↔ W = R) := by
  unfold USIZE at *
  omega

/-- The compile-time capacity assertion of the ring buffers: `C != 0` and
`C & (C - 1) == 0`, i.e. `C` is a power of two representable as `usize`. -/
def GoodCap (C : Nat) : Prop := ∃ k, k < 64 ∧ C = 2 ^ k

theorem GoodCap.pos {C : Nat} (h : GoodCap C) : 0 < C := by
  obtain ⟨k, _, rfl⟩ := h
  exact Nat.pos_pow_of_pos k (by decide)

theorem GoodCap.lt_usize {C : Nat} (h : GoodCap C) : C < USIZE := by
  obtain ⟨k, hk, rfl⟩ := h
  rw [USIZE_eq]
  exact Nat.pow_lt_pow_right (by decide) hk

theorem GoodCap.dvd_usize {C : Nat} (h : GoodCap C) : C ∣ USIZE := by
  obtain ⟨k, hk, rfl⟩ := h
  rw [USIZE_eq]
  exact pow_dvd_pow 2 (Nat.le_of_lt hk)

/-- State of a ring buffer with element type `T`: the backing cells (indexed by
physical slot, `none` meaning uninitialized) and the two cursors.  This is the
common shape of both `RingBuffer` layouts: `[UnsafeCell<MaybeUninit<T>>; C]`
with `AtomicUsize` cursors in src/ring.rs, and `MaybeUninit<[T; C]>` with
plain `usize` cursors in src/ring_buffer.rs (atomics store plain `usize`
values; in this sequential model the memory orderings have no effect). -/
structure RingState (T : Type) where
  inner : Nat → Option T
  read : Nat
  write : Nat

namespace ring

/-- `RingBuffer::mask_idx` (src/ring.rs): `idx & (CAPACITY - 1)`. -/
def mask_idx (C idx : Nat) : Nat := idx &&& (C - 1)

/-- `RingBuffer::new` (src/ring.rs): uninitialized cells, both cursors 0. -/
def new (T : Type) : RingState T :=
  { inner := fun _ => none, read := 0, write := 0 }

/-- `RingBuffer::size` (src/ring.rs): `write.wrapping_sub(read)`. -/
def size {T : Type} (s : RingState T) : Nat := wsub s.write s.read

/-- `RingBuffer::is_empty` (src/ring.rs): `write == read`. -/
def is_empty {T : Type} (s : RingState T) : Bool := s.write == s.read

/-- `RingBuffer::is_full` (src/ring.rs): `size() == CAPACITY`. -/
def is_full {T : Type} (C : Nat) (s : RingState T) : Bool := size s == C

/-- `RingBuffer::push` (src/ring.rs): `write.fetch_add(1)` (so the new value
goes to slot `mask_idx(old write)` and the cursor advances wrapping), then if
`old write - read == CAPACITY` the oldest element is read out (dropped) and
`read` advances by one; finally the value is stored.  `ptr::read` and the
store both leave the other cells untouched. -/
def push {T : Type} (C : Nat) (s : RingState T) (value : T) : RingState T :=
  let write := s.write
  let read := s.read
  let remaning := wsub write read
  { inner := fun j => if j = mask_idx C write then some value else s.inner j,
    read := if remaning = C then wadd read else read,
    write := wadd write }

/-- `RingBuffer::inner_push` (src/ring.rs): if `write - read != CAPACITY`,
store the value at `mask_idx(write)`, advance `write`, return `None`;
otherwise return the value back and change nothing. -/
def inner_push {T : Type} (C : Nat) (s : RingState T) (value : T) :
    Option T × RingState T :=
  let idx := s.write
  let remaning := wsub idx s.read
  if remaning ≠ C then
    (none,
     { inner := fun j => if j = mask_idx C idx then some value else s.inner j,
       read := s.read,
       write := wadd idx })
  else
    (some value, s)

/-- `RingBuffer::try_push` (src/ring.rs): `inner_push` with relaxed orderings. -/
def try_push {T : Type} (C : Nat) (s : RingState T) (value : T) :
    Option T × RingState T :=
  inner_push C s value

/-- `RingBuffer::inner_pop` (src/ring.rs): if `read != write`, read the cell at
`mask_idx(read)` and advance `read`; else return `None`.  The cell keeps its
content (`ptr::read`). -/
def inner_pop {T : Type} (C : Nat) (s : RingState T) : Option T × RingState T :=
  let idx := s.read
  if idx ≠ s.write then
    (s.inner (mask_idx C idx), { s with read := wadd idx })
  else
    (none, s)

/-- `RingBuffer::pop` (src/ring.rs): `inner_pop` with relaxed orderings. -/
def pop {T : Type} (C : Nat) (s : RingState T) : Option T × RingState T :=
  inner_pop C s

/-- `RingBuffer::clear` (src/ring.rs): for droppable `T` it pops `size()`
times, for trivially droppable `T` it stores `write` into `read`; in both
cases the resulting cursors are `read = write` and the cells are unchanged. -/
def clear {T : Type} (s : RingState T) : RingState T :=
  { s with read := s.write }

/-- `Producer::try_push` (src/ring.rs): `inner_push` with acquire load of
`read` and release store of `write` (no sequential difference). -/
def Producer.try_push {T : Type} (C : Nat) (s : RingState T) (value : T) :
    Option T × RingState T :=
  inner_push C s value

/-- `Consumer::pop` (src/ring.rs): `inner_pop` with acquire load of `write`
and release store of `read` (no sequential difference). -/
def Consumer.pop {T : Type} (C : Nat) (s : RingState T) : Option T × RingState T :=
  inner_pop C s

end ring

namespace ring_buffer

/-- `RingBuffer::mask_idx` (src/ring_buffer.rs): `idx & (CAPACITY - 1)`. -/
def mask_idx (C idx : Nat) : Nat := idx &&& (C - 1)

/-- `RingBuffer::new` (src/ring_buffer.rs). -/
def new (T : Type) : RingState T :=
  { inner := fun _ => none, read := 0, write := 0 }

/-- `RingBuffer::size` (src/ring_buffer.rs): `self.write - self.read` on
`usize`; release-build subtraction wraps (claim C10 is exactly that on
reachable states it never underflows, so wrapping and exact agree there). -/
def size {T : Type} (s : RingState T) : Nat := wsub s.write s.read

/-- `RingBuffer::is_empty` (src/ring_buffer.rs): `write == read`. -/
def is_empty {T : Type} (s : RingState T) : Bool := s.write == s.read

/-- `RingBuffer::is_full` (src/ring_buffer.rs): `size() == capacity()`. -/
def is_full {T : Type} (C : Nat) (s : RingState T) : Bool := size s == C

/-- `RingBuffer::pop_unchecked` (src/ring_buffer.rs): copy the element at
`mask_idx(read)` out and advance `read` by `wrapping_add(1)`. -/
def pop_unchecked {T : Type} (C : Nat) (s : RingState T) : Option T × RingState T :=
  (s.inner (mask_idx C s.read), { s with read := wadd s.read })

/-- `RingBuffer::push` (src/ring_buffer.rs): if `is_full()` first
`pop_unchecked()` (evicting the oldest element), then write the value at
`mask_idx(write)` and advance `write` by `wrapping_add(1)`. -/
def push {T : Type} (C : Nat) (s : RingState T) (value : T) : RingState T :=
  let s1 := if is_full C s then (pop_unchecked C s).2 else s
  { inner := fun j => if j = mask_idx C s1.write then some value else s1.inner j,
    read := s1.read,
    write := wadd s1.write }

/-- `RingBuffer::pop` (src/ring_buffer.rs): `None` when `is_empty()`, else
`pop_unchecked()`. -/
def pop {T : Type} (C : Nat) (s : RingState T) : Option T × RingState T :=
  if is_empty s then (none, s) else pop_unchecked C s

/-- `RingBuffer::clear` (src/ring_buffer.rs): pops `size()` times for
droppable `T`, else sets `read = write`; either way the cursors end equal and
the cells are unchanged. -/
def clear {T : Type} (s : RingState T) : RingState T :=
  { s with read := s.write }

end ring_buffer

/-! Bridging facts: the plain (src/ring_buffer.rs) operations compute exactly
the same state transformations as the atomic owning-mode (src/ring.rs) ones. -/

theorem ring_buffer.push_eq_ring_push {T : Type} (C : Nat) (s : RingState T) (v : T) :
    ring_buffer.push C s v = ring.push C s v := by
  unfold ring_buffer.push ring.push ring_buffer.is_full ring_buffer.pop_unchecked
    ring_buffer.size ring.mask_idx ring_buffer.mask_idx
  by_cases h : wsub s.write s.read = C
  · simp [h]
  · simp [h]

theorem ring_buffer.pop_eq_ring_pop {T : Type} (C : Nat) (s : RingState T) :
    ring_buffer.pop C s = ring.pop C s := by
  unfold ring_buffer.pop ring.pop ring.inner_pop ring_buffer.is_empty
    ring_buffer.pop_unchecked ring.mask_idx ring_buffer.mask_idx
  by_cases h : s.write = s.read
  · simp [h]
  · simp [h, Ne.symm h]

theorem ring_buffer.clear_eq_ring_clear {T : Type} (s : RingState T) :
    ring_buffer.clear s = ring.clear s := rfl

theorem ring_buffer.new_eq_ring_new (T : Type) :
    ring_buffer.new T = ring.new T := rfl

/-- Under the capacity assertion, masking is reduction modulo `C`. -/
theorem mask_idx_eq_mod {C : Nat} (hC : GoodCap C) (x : Nat) :
    ring.mask_idx C x = x % C := by
  obtain ⟨k, _, rfl⟩ := hC
  exact Nat.and_pow_two_sub_one_eq_mod x k

/-- Masking is insensitive to prior reduction modulo the word size. -/
theorem mask_idx_mod_usize {C : Nat} (hC : GoodCap C) (x : Nat) :
    ring.mask_idx C (x % USIZE) = ring.mask_idx C x := by
  rw [mask_idx_eq_mod hC, mask_idx_eq_mod hC, Nat.mod_mod_of_dvd x hC.dvd_usize]

/-- Positions less than `C` apart have distinct masks. -/
theorem mask_idx_ne {C : Nat} (hC : GoodCap C) {p q : Nat} (hpq : p < q)
    (h : q - p < C) : ring.mask_idx C q ≠ ring.mask_idx C p := by
  rw [mask_idx_eq_mod hC, mask_idx_eq_mod hC]
  intro heq
  have hmod : p ≡ q [MOD C] := by
    unfold Nat.ModEq
    omega
  have hdvd : C ∣ q - p := (Nat.modEq_iff_dvd' (Nat.le_of_lt hpq)).mp hmod
  have := Nat.le_of_dvd (by omega) hdvd
  omega

/-! Projection equations for the ring operations, used throughout the proofs. -/

theorem ring.push_read {T : Type} (C : Nat) (s : RingState T) (v : T) :
    (ring.push C s v).read =
      if wsub s.write s.read = C then wadd s.read else s.read := rfl

theorem ring.push_write {T : Type} (C : Nat) (s : RingState T) (v : T) :
    (ring.push C s v).write = wadd s.write := rfl

theorem ring.push_inner {T : Type} (C : Nat) (s : RingState T) (v : T) (j : Nat) :
    (ring.push C s v).inner j =
      if j = ring.mask_idx C s.write then some v else s.inner j := rfl

theorem ring.inner_push_of_ne {T : Type} {C : Nat} {s : RingState T} (v : T)
    (h : wsub s.write s.read ≠ C) :
    ring.inner_push C s v =
      (none,
       { inner := fun j => if j = ring.mask_idx C s.write then some v else s.inner j,
         read := s.read,
         write := wadd s.write }) := by
  simp [ring.inner_push, h]

theorem ring.inner_push_of_eq {T : Type} {C : Nat} {s : RingState T} (v : T)
    (h : wsub s.write s.read = C) :
    ring.inner_push C s v = (some v, s) := by
  simp [ring.inner_push, h]

theorem ring.inner_pop_of_ne {T : Type} {C : Nat} {s : RingState T}
    (h : s.read ≠ s.write) :
    ring.inner_pop C s =
      (s.inner (ring.mask_idx C s.read), { s with read := wadd s.read }) := by
  simp [ring.inner_pop, h]

theorem ring.inner_pop_of_eq {T : Type} {C : Nat} {s : RingState T}
    (h : s.read = s.write) :
    ring.inner_pop C s = (none, s) := by
  simp [ring.inner_pop, h]

/-! Reachability and the cursor invariant for the atomic ring (src/ring.rs),
owning mode: any sequence of `push`, `try_push`, `pop`, `clear` from `new`. -/

/-- States of the atomic `RingBuffer` reachable from `new()` by `push`,
`try_push`, `pop` and `clear` calls. -/
inductive ring.Reachable (T : Type) (C : Nat) : RingState T → Prop where
  | new : ring.Reachable T C (ring.new T)
  | push (s : RingState T) (v : T) :
      ring.Reachable T C s → ring.Reachable T C (ring.push C s v)
  | try_push (s : RingState T) (v : T) :
      ring.Reachable T C s → ring.Reachable T C (ring.try_push C s v).2
  | pop (s : RingState T) :
      ring.Reachable T C s → ring.Reachable T C (ring.pop C s).2
  | clear (s : RingState T) :
      ring.Reachable T C s → ring.Reachable T C (ring.clear s)

/-- Ghost-counter invariant of the atomic ring: the stored cursors are the
word-size reductions of two unbounded monotone counters `R ≤ W` whose
difference is at most `C`, and every logical position in the live window
`[R, W)` has an initialized cell. -/
def ring.Inv (T : Type) (C : Nat) (s : RingState T) : Prop :=
  ∃ R W : Nat, R ≤ W ∧ W - R ≤ C ∧
    s.read = R % USIZE ∧ s.write = W % USIZE ∧
    ∀ p, R ≤ p → p < W → (s.inner (ring.mask_idx C p)).isSome = true

theorem ring.reachable_inv {T : Type} {C : Nat} (hC : GoodCap C)
    {s : RingState T} (h : ring.Reachable T C s) : ring.Inv T C s := by
  have hCM : C < USIZE := hC.lt_usize
  induction h with
  | new =>
    exact ⟨0, 0, Nat.le_refl 0, by omega, by simp [ring.new], by simp [ring.new],
      fun p h1 h2 => absurd h2 (by omega)⟩
  | push s v hs ih =>
    obtain ⟨R, W, hRW, hd, hr, hw, hsome⟩ := ih
    have hrem : wsub s.write s.read = W - R := by
      rw [hr, hw]; exact wsub_mod R W hRW (by omega)
    have hmw : ring.mask_idx C s.write = ring.mask_idx C W := by
      rw [hw]; exact mask_idx_mod_usize hC W
    have hinner : ∀ p, R ≤ p → p < W + 1 →
        ((ring.push C s v).inner (ring.mask_idx C p)).isSome = true := by
      intro p h1 h2
      rw [ring.push_inner, hmw]
      by_cases hp : ring.mask_idx C p = ring.mask_idx C W
      · simp [hp]
      · have hpW : p ≠ W := fun he => hp (by rw [he])
        rw [if_neg hp]
        exact hsome p h1 (by omega)
    by_cases hfull : W - R = C
    · refine ⟨R + 1, W + 1, by omega, by omega, ?_, ?_, fun p h1 h2 => hinner p (by omega) h2⟩
      · rw [ring.push_read, hrem, if_pos hfull, hr, wadd_mod]
      · rw [ring.push_write, hw, wadd_mod]
    · refine ⟨R, W + 1, by omega, by omega, ?_, ?_, hinner⟩
      · rw [ring.push_read, hrem, if_neg hfull, hr]
      · rw [ring.push_write, hw, wadd_mod]
  | try_push s v hs ih =>
    obtain ⟨R, W, hRW, hd, hr, hw, hsome⟩ := ih
    have hrem : wsub s.write s.read = W - R := by
      rw [hr, hw]; exact wsub_mod R W hRW (by omega)
    have hmw : ring.mask_idx C s.write = ring.mask_idx C W := by
      rw [hw]; exact mask_idx_mod_usize hC W
    have htp : ring.try_push C s v = ring.inner_push C s v := rfl
    by_cases hfull : W - R = C
    · rw [htp, ring.inner_push_of_eq v (by omega)]
      exact ⟨R, W, hRW, hd, hr, hw, hsome⟩
    · rw [htp, ring.inner_push_of_ne v (by omega)]
      refine ⟨R, W + 1, by omega, by omega, hr, by rw [hw, wadd_mod], ?_⟩
      intro p h1 h2
      simp only [hmw]
      by_cases hp : ring.mask_idx C p = ring.mask_idx C W
      · simp [hp]
      · have hpW : p ≠ W := fun he => hp (by rw [he])
        rw [if_neg hp]
        exact hsome p h1 (by omega)
  | pop s hs ih =>
    obtain ⟨R, W, hRW, hd, hr, hw, hsome⟩ := ih
    have hpp : ring.pop C s = ring.inner_pop C s := rfl
    by_cases hne : s.read = s.write
    · rw [hpp, ring.inner_pop_of_eq hne]
      exact ⟨R, W, hRW, hd, hr, hw, hsome⟩
    · have hRW1 : R ≠ W := by
        intro he
        exact hne (by rw [hr, hw, he])
      rw [hpp, ring.inner_pop_of_ne hne]
      refine ⟨R + 1, W, by omega, by omega, by rw [hr, wadd_mod], hw, ?_⟩
      intro p h1 h2
      exact hsome p (by omega) h2
  | clear s hs ih =>
    obtain ⟨R, W, hRW, hd, hr, hw, hsome⟩ := ih
    exact ⟨W, W, Nat.le_refl W, by omega, hw, hw,
      fun p h1 h2 => absurd h2 (by omega)⟩

/-- Masking commutes with word-size reduction of a shifted cursor. -/
theorem mask_idx_add_mod {C : Nat} (hC : GoodCap C) (R i : Nat) :
    ring.mask_idx C ((R % USIZE + i) % USIZE) = ring.mask_idx C (R + i) := by
  rw [mask_idx_mod_usize hC, mask_idx_eq_mod hC, mask_idx_eq_mod hC]
  exact Nat.ModEq.add_right i (Nat.ModEq.of_dvd hC.dvd_usize (Nat.mod_modEq R USIZE))

/-- C1: for the atomic `RingBuffer<T, C>` in owning mode, in every state
reachable from `new()` by `push`, `try_push`, `pop` and `clear`, the wrapping
difference `write - read` (which is what `size()` returns) never exceeds `C`
and counts the live elements (every cell in the live window is initialized);
`is_full()` holds exactly when `size() == C` and `is_empty()` exactly when
`size() == 0`. -/
theorem c1_atomic_owning_invariant (T : Type) (C : Nat) (hC : GoodCap C)
    (s : RingState T) (hs : ring.Reachable T C s) :
    ring.size s ≤ C ∧
    (ring.is_full C s = true ↔ ring.size s = C) ∧
    (ring.is_empty s = true ↔ ring.size s = 0) ∧
    ∀ i, i < ring.size s →
      (s.inner (ring.mask_idx C ((s.read + i) % USIZE))).isSome = true := by
  obtain ⟨R, W, hRW, hd, hr, hw, hsome⟩ := ring.reachable_inv hC hs
  have hCM := hC.lt_usize
  have hsize : ring.size s = W - R := by
    unfold ring.size
    rw [hr, hw]
    exact wsub_mod R W hRW (by omega)
  refine ⟨by omega, ?_, ?_, ?_⟩
  · simp [ring.is_full]
  · simp only [ring.is_empty, beq_iff_eq, hsize, hr, hw]
    rw [mod_usize_inj R W hRW (by omega)]
    omega
  · intro i hi
    rw [hsize] at hi
    rw [hr, mask_idx_add_mod hC R i]
    exact hsome (R + i) (by omega) (by omega)

/-- Witness for C1 at `C = 4`, on the reachable state obtained by one `push`. -/
theorem c1_atomic_owning_invariant_witness :
    ring.size (ring.push 4 (ring.new Nat) 7) ≤ 4 ∧
    (ring.is_full 4 (ring.push 4 (ring.new Nat) 7) = true ↔
      ring.size (ring.push 4 (ring.new Nat) 7) = 4) ∧
    (ring.is_empty (ring.push 4 (ring.new Nat) 7) = true ↔
      ring.size (ring.push 4 (ring.new Nat) 7) = 0) ∧
    ∀ i, i < ring.size (ring.push 4 (ring.new Nat) 7) →
      ((ring.push 4 (ring.new Nat) 7).inner
        (ring.mask_idx 4 (((ring.push 4 (ring.new Nat) 7).read + i) % USIZE))).isSome = true :=
  c1_atomic_owning_invariant Nat 4 ⟨2, by decide⟩ _
    (ring.Reachable.push (ring.new Nat) 7 ring.Reachable.new)

/-! Reachability with a push count for the plain macro-generated ring
(src/ring_buffer.rs). -/

/-- States of the plain `RingBuffer` reachable from `new()` by `push`, `pop`
and `clear` calls, indexed by how many `push` calls occurred. -/
inductive ring_buffer.Reachable (T : Type) (C : Nat) : RingState T → Nat → Prop where
  | new : ring_buffer.Reachable T C (ring_buffer.new T) 0
  | push (s : RingState T) (v : T) (n : Nat) :
      ring_buffer.Reachable T C s n →
      ring_buffer.Reachable T C (ring_buffer.push C s v) (n + 1)
  | pop (s : RingState T) (n : Nat) :
      ring_buffer.Reachable T C s n →
      ring_buffer.Reachable T C (ring_buffer.pop C s).2 n
  | clear (s : RingState T) (n : Nat) :
      ring_buffer.Reachable T C s n →
      ring_buffer.Reachable T C (ring_buffer.clear s) n

theorem ring_buffer.reachable_cursor_inv {T : Type} {C : Nat} (hC : GoodCap C)
    {s : RingState T} {n : Nat} (h : ring_buffer.Reachable T C s n) :
    ∃ R W : Nat, R ≤ W ∧ W - R ≤ C ∧ W ≤ n ∧
      s.read = R % USIZE ∧ s.write = W % USIZE := by
  have hCM : C < USIZE := hC.lt_usize
  induction h with
  | new =>
    exact ⟨0, 0, Nat.le_refl 0, by omega, by omega, by simp [ring_buffer.new],
      by simp [ring_buffer.new]⟩
  | push s v n hs ih =>
    obtain ⟨R, W, hRW, hd, hn, hr, hw⟩ := ih
    have hrem : wsub s.write s.read = W - R := by
      rw [hr, hw]
      exact wsub_mod R W hRW (by omega)
    rw [ring_buffer.push_eq_ring_push]
    by_cases hfull : W - R = C
    · exact ⟨R + 1, W + 1, by omega, by omega, by omega,
        by rw [ring.push_read, hrem, if_pos hfull, hr, wadd_mod],
        by rw [ring.push_write, hw, wadd_mod]⟩
    · exact ⟨R, W + 1, by omega, by omega, by omega,
        by rw [ring.push_read, hrem, if_neg hfull, hr],
        by rw [ring.push_write, hw, wadd_mod]⟩
  | pop s n hs ih =>
    obtain ⟨R, W, hRW, hd, hn, hr, hw⟩ := ih
    rw [ring_buffer.pop_eq_ring_pop]
    have hpp : ring.pop C s = ring.inner_pop C s := rfl
    by_cases hne : s.read = s.write
    · rw [hpp, ring.inner_pop_of_eq hne]
      exact ⟨R, W, hRW, hd, hn, hr, hw⟩
    · have hRW1 : R ≠ W := by
        intro he
        exact hne (by rw [hr, hw, he])
      rw [hpp, ring.inner_pop_of_ne hne]
      exact ⟨R + 1, W, by omega, by omega, by omega, by rw [hr, wadd_mod], hw⟩
  | clear s n hs ih =>
    obtain ⟨R, W, hRW, hd, hn, hr, hw⟩ := ih
    exact ⟨W, W, Nat.le_refl W, by omega, by omega, hw, hw⟩

/-- C10: for the plain macro-generated `RingBuffer` with power-of-two
capacity, every state reachable by fewer than `2 ^ 64` pushes has exact
(non-wrapping) cursors with `read <= write` and `write - read <= CAPACITY`,
so the plain subtraction in `size()` cannot underflow, and a full buffer is
never reported empty. -/
theorem c10_plain_ring_no_underflow (T : Type) (C : Nat) (hC : GoodCap C)
    (s : RingState T) (n : Nat) (hs : ring_buffer.Reachable T C s n)
    (hn : n < USIZE) :
    s.read ≤ s.write ∧ s.write - s.read ≤ C ∧
    (ring_buffer.is_full C s = true → ring_buffer.is_empty s = false) := by
  obtain ⟨R, W, hRW, hd, hWn, hr, hw⟩ := ring_buffer.reachable_cursor_inv hC hs
  have hCM := hC.lt_usize
  have hsize : ring_buffer.size s = W - R := by
    unfold ring_buffer.size
    rw [hr, hw]
    exact wsub_mod R W hRW (by omega)
  have hW : W % USIZE = W := Nat.mod_eq_of_lt (by omega)
  have hR : R % USIZE = R := Nat.mod_eq_of_lt (by omega)
  rw [hW] at hw
  rw [hR] at hr
  refine ⟨by omega, by omega, ?_⟩
  intro hfull
  have hC1 : 0 < C := hC.pos
  have : W - R = C := by
    simpa [ring_buffer.is_full, hsize] using hfull
  simp only [ring_buffer.is_empty, hr, hw, beq_eq_false_iff_ne, ne_eq]
  omega

/-- Witness for C10 at `C = 4`, after a single push. -/
theorem c10_plain_ring_no_underflow_witness :
    (ring_buffer.push 4 (ring_buffer.new Nat) 7).read ≤
      (ring_buffer.push 4 (ring_buffer.new Nat) 7).write ∧
    (ring_buffer.push 4 (ring_buffer.new Nat) 7).write -
      (ring_buffer.push 4 (ring_buffer.new Nat) 7).read ≤ 4 ∧
    (ring_buffer.is_full 4 (ring_buffer.push 4 (ring_buffer.new Nat) 7) = true →
      ring_buffer.is_empty (ring_buffer.push 4 (ring_buffer.new Nat) 7) = false) :=
  c10_plain_ring_no_underflow Nat 4 ⟨2, by decide⟩ _ 1
    (ring_buffer.Reachable.push (ring_buffer.new Nat) 7 0 ring_buffer.Reachable.new)
    (by decide)

/-- A concrete full atomic ring of capacity 1 (one element pushed, none read). -/
def ringFull1 : RingState Nat :=
  { inner := fun j => if j = 0 then some 7 else none, read := 0, write := 1 }

/-- C3: `try_push` — the owning method and `Producer::try_push` alike — never
evicts: when the wrapping difference `write - read` equals `C` it returns the
value back and leaves cursors and cells untouched; otherwise it stores the
value in slot `write & (C - 1)`, advances `write` by one (wrapping), changes
no other cell, and returns nothing. -/
theorem c3_try_push_never_evicts (T : Type) (C : Nat) (s : RingState T) (v : T) :
    (wsub s.write s.read = C →
      ring.try_push C s v = (some v, s) ∧
      ring.Producer.try_push C s v = (some v, s)) ∧
    (wsub s.write s.read ≠ C →
      (ring.try_push C s v).1 = none ∧
      (ring.try_push C s v).2.write = wadd s.write ∧
      (ring.try_push C s v).2.read = s.read ∧
      (ring.try_push C s v).2.inner (ring.mask_idx C s.write) = some v ∧
      (∀ j, j ≠ ring.mask_idx C s.write → (ring.try_push C s v).2.inner j = s.inner j) ∧
      ring.Producer.try_push C s v = ring.try_push C s v) := by
  have h1 : ring.try_push C s v = ring.inner_push C s v := rfl
  have h2 : ring.Producer.try_push C s v = ring.inner_push C s v := rfl
  constructor
  · intro h
    rw [h1, h2, ring.inner_push_of_eq v h]
    exact ⟨rfl, rfl⟩
  · intro h
    rw [h1, ring.inner_push_of_ne v h]
    exact ⟨rfl, rfl, rfl, by simp, fun j hj => by simp [hj],
      h2.trans (ring.inner_push_of_ne v h)⟩

/-- Witness for C3: a full capacity-1 ring rejects and is left unchanged; an
empty one accepts into slot 0. -/
theorem c3_try_push_never_evicts_witness :
    (ring.try_push 1 ringFull1 9 = (some 9, ringFull1) ∧
     ring.Producer.try_push 1 ringFull1 9 = (some 9, ringFull1)) ∧
    ((ring.try_push 1 (ring.new Nat) 5).1 = none ∧
     (ring.try_push 1 (ring.new Nat) 5).2.write = wadd (ring.new Nat).write ∧
     (ring.try_push 1 (ring.new Nat) 5).2.read = (ring.new Nat).read ∧
     (ring.try_push 1 (ring.new Nat) 5).2.inner
        (ring.mask_idx 1 (ring.new Nat).write) = some 5) := by
  refine ⟨(c3_try_push_never_evicts Nat 1 ringFull1 9).1 (by decide), ?_⟩
  have h := (c3_try_push_never_evicts Nat 1 (ring.new Nat) 5).2 (by decide)
  exact ⟨h.1, h.2.1, h.2.2.1, h.2.2.2.1⟩

/-! FIFO/eviction behaviour of the owning-mode push (claim C2), for both the
atomic ring (src/ring.rs) and the plain macro ring (src/ring_buffer.rs). -/

/-- Folding `RingBuffer::push` (src/ring.rs) over a list of values, as a
`for` loop of pushes does. -/
def ring.pushAll {T : Type} (C : Nat) (s : RingState T) (xs : List T) : RingState T :=
  xs.foldl (fun t v => ring.push C t v) s

/-- Popping `k` times in a row with `RingBuffer::pop` (src/ring.rs),
collecting the results. -/
def ring.popN {T : Type} (C : Nat) (s : RingState T) : Nat → List (Option T) × RingState T
  | 0 => ([], s)
  | k + 1 =>
    let r := ring.pop C s
    let rest := ring.popN C r.2 k
    (r.1 :: rest.1, rest.2)

/-- Folding `RingBuffer::push` (src/ring_buffer.rs) over a list of values. -/
def ring_buffer.pushAll {T : Type} (C : Nat) (s : RingState T) (xs : List T) :
    RingState T :=
  xs.foldl (fun t v => ring_buffer.push C t v) s

/-- Popping `k` times in a row with `RingBuffer::pop` (src/ring_buffer.rs). -/
def ring_buffer.popN {T : Type} (C : Nat) (s : RingState T) :
    Nat → List (Option T) × RingState T
  | 0 => ([], s)
  | k + 1 =>
    let r := ring_buffer.pop C s
    let rest := ring_buffer.popN C r.2 k
    (r.1 :: rest.1, rest.2)

theorem ring_buffer.pushAll_eq {T : Type} (C : Nat) (s : RingState T) (xs : List T) :
    ring_buffer.pushAll C s xs = ring.pushAll C s xs := by
  unfold ring_buffer.pushAll ring.pushAll
  congr 1
  funext t v
  exact ring_buffer.push_eq_ring_push C t v

theorem ring_buffer.popN_eq {T : Type} (C : Nat) :
    ∀ (k : Nat) (s : RingState T), ring_buffer.popN C s k = ring.popN C s k := by
  intro k
  induction k with
  | zero => intro s; rfl
  | succ k ih =>
    intro s
    simp only [ring_buffer.popN, ring.popN, ring_buffer.pop_eq_ring_pop, ih]

theorem ring.pushAll_append {T : Type} (C : Nat) (s : RingState T)
    (xs : List T) (v : T) :
    ring.pushAll C s (xs ++ [v]) = ring.push C (ring.pushAll C s xs) v := by
  simp [ring.pushAll, List.foldl_append]

/-- Characterization of a push loop from `new()`: the write cursor counts the
pushes, the read cursor trails it by at most `C` (evictions advanced it), and
each of the last `min len C` pushed values sits in its masked slot. -/
theorem ring.pushAll_spec {T : Type} {C : Nat} (hC : GoodCap C) (xs : List T) :
    (ring.pushAll C (ring.new T) xs).write = xs.length % USIZE ∧
    (ring.pushAll C (ring.new T) xs).read =
      (xs.length - min xs.length C) % USIZE ∧
    ∀ p, p < xs.length → xs.length ≤ p + C →
      (ring.pushAll C (ring.new T) xs).inner (ring.mask_idx C p) = xs.get? p := by
  have hCM := hC.lt_usize
  induction xs using List.reverseRecOn with
  | nil =>
    refine ⟨by simp [ring.pushAll, ring.new], by simp [ring.pushAll, ring.new], ?_⟩
    intro p hp
    exact absurd hp (by simp)
  | append_singleton xs v ih =>
    obtain ⟨hw, hr, hin⟩ := ih
    rw [ring.pushAll_append]
    have hrem : wsub (ring.pushAll C (ring.new T) xs).write
        (ring.pushAll C (ring.new T) xs).read = min xs.length C := by
      rw [hw, hr, wsub_mod (xs.length - min xs.length C) xs.length (by omega) (by omega)]
      omega
    have hmw : ring.mask_idx C (ring.pushAll C (ring.new T) xs).write =
        ring.mask_idx C xs.length := by
      rw [hw]
      exact mask_idx_mod_usize hC xs.length
    refine ⟨?_, ?_, ?_⟩
    · rw [ring.push_write, hw, wadd_mod]
      simp
    · rw [ring.push_read, hrem]
      by_cases hLC : C ≤ xs.length
      · rw [if_pos (Nat.min_eq_right hLC), hr, wadd_mod]
        simp only [List.length_append, List.length_cons, List.length_nil]
        congr 1
        omega
      · rw [if_neg (by omega), hr]
        simp only [List.length_append, List.length_cons, List.length_nil]
        congr 1
        omega
    · intro p hp hpc
      simp only [List.length_append, List.length_cons, List.length_nil] at hp hpc
      rw [ring.push_inner, hmw]
      by_cases hpL : p = xs.length
      · subst hpL
        rw [if_pos rfl, List.get?_append_right (Nat.le_refl _)]
        simp
      · have hplt : p < xs.length := by omega
        rw [if_neg (Ne.symm (mask_idx_ne hC hplt (by omega))),
          List.get?_append hplt]
        exact hin p hplt (by omega)

/-- Popping `k <= size` times walks the live window in order, returning the
cell at each successive masked position and advancing only `read`. -/
theorem ring.popN_spec {T : Type} {C : Nat} (hC : GoodCap C) :
    ∀ (k : Nat) (s : RingState T) (R W : Nat), R ≤ W → W - R ≤ C → k ≤ W - R →
      s.read = R % USIZE → s.write = W % USIZE →
      (ring.popN C s k).1 =
        (List.range' R k).map (fun p => s.inner (ring.mask_idx C p)) ∧
      (ring.popN C s k).2.read = (R + k) % USIZE ∧
      (ring.popN C s k).2.write = s.write ∧
      (ring.popN C s k).2.inner = s.inner := by
  have hCM := hC.lt_usize
  intro k
  induction k with
  | zero =>
    intro s R W h1 h2 h3 hr hw
    exact ⟨by simp [ring.popN], by simpa [ring.popN] using hr, rfl, rfl⟩
  | succ k ih =>
    intro s R W h1 h2 h3 hr hw
    have hne : s.read ≠ s.write := by
      rw [hr, hw]
      intro he
      have := (mod_usize_inj R W h1 (by omega)).mp he.symm
      omega
    have hpop : ring.pop C s =
        (s.inner (ring.mask_idx C s.read), { s with read := wadd s.read }) :=
      ring.inner_pop_of_ne hne
    have hr' : ({ s with read := wadd s.read } : RingState T).read = (R + 1) % USIZE := by
      show wadd s.read = (R + 1) % USIZE
      rw [hr, wadd_mod]
    obtain ⟨ih1, ih2, ih3, ih4⟩ :=
      ih { s with read := wadd s.read } (R + 1) W (by omega) (by omega) (by omega) hr' hw
    simp only [ring.popN, hpop]
    refine ⟨?_, ?_, ih3, ih4⟩
    · rw [List.range'_succ, List.map_cons, ih1, hr, mask_idx_mod_usize hC]
    · rw [ih2]
      congr 1
      omega

/-- C2: in owning mode — for both the atomic ring of src/ring.rs and the plain
macro ring of src/ring_buffer.rs — pushing the values `0, ..., C+N-1` into an
empty buffer leaves `size() == C`, and the following pops return exactly
`N, N+1, ..., C+N-1` in order, after which `pop` returns nothing: each push on
a full buffer evicted exactly the single oldest element. -/
theorem c2_owning_push_evicts_oldest_fifo (C N : Nat) (hC : GoodCap C) (hN : 0 < N) :
    (ring.size (ring.pushAll C (ring.new Nat) (List.range (C + N))) = C ∧
     (ring.popN C (ring.pushAll C (ring.new Nat) (List.range (C + N))) C).1 =
       (List.range' N C).map some ∧
     (ring.pop C
       (ring.popN C (ring.pushAll C (ring.new Nat) (List.range (C + N))) C).2).1 =
       none) ∧
    (ring_buffer.size
       (ring_buffer.pushAll C (ring_buffer.new Nat) (List.range (C + N))) = C ∧
     (ring_buffer.popN C
       (ring_buffer.pushAll C (ring_buffer.new Nat) (List.range (C + N))) C).1 =
       (List.range' N C).map some ∧
     (ring_buffer.pop C
       (ring_buffer.popN C
         (ring_buffer.pushAll C (ring_buffer.new Nat) (List.range (C + N))) C).2).1 =
       none) := by
  have hCM := hC.lt_usize
  obtain ⟨hw, hr, hin⟩ := ring.pushAll_spec hC (List.range (C + N))
  simp only [List.length_range] at hw hr hin
  have hmin : min (C + N) C = C := Nat.min_eq_right (by omega)
  have hr' : (ring.pushAll C (ring.new Nat) (List.range (C + N))).read = N % USIZE := by
    rw [hr, hmin]
    congr 1
    omega
  have hsize : ring.size (ring.pushAll C (ring.new Nat) (List.range (C + N))) = C := by
    unfold ring.size
    rw [hw, hr', wsub_mod N (C + N) (by omega) (by omega)]
    omega
  obtain ⟨hp1, hp2, hp3, hp4⟩ :=
    ring.popN_spec hC C (ring.pushAll C (ring.new Nat) (List.range (C + N)))
      N (C + N) (by omega) (by omega) (by omega) hr' hw
  have hvals : (ring.popN C (ring.pushAll C (ring.new Nat) (List.range (C + N))) C).1 =
      (List.range' N C).map some := by
    rw [hp1]
    refine List.map_congr_left ?_
    intro p hp
    rw [List.mem_range'_1] at hp
    rw [hin p (by omega) (by omega)]
    exact List.get?_range (by omega)
  have hlast : (ring.pop C
      (ring.popN C (ring.pushAll C (ring.new Nat) (List.range (C + N))) C).2).1 = none := by
    have heq : (ring.popN C (ring.pushAll C (ring.new Nat) (List.range (C + N))) C).2.read =
        (ring.popN C (ring.pushAll C (ring.new Nat) (List.range (C + N))) C).2.write := by
      rw [hp2, hp3, hw]
      congr 1
      omega
    rw [show ring.pop C (ring.popN C (ring.pushAll C (ring.new Nat)
        (List.range (C + N))) C).2 = ring.inner_pop C _ from rfl,
      ring.inner_pop_of_eq heq]
  refine ⟨⟨hsize, hvals, hlast⟩, ?_⟩
  rw [ring_buffer.new_eq_ring_new, ring_buffer.pushAll_eq, ring_buffer.popN_eq,
    ring_buffer.pop_eq_ring_pop]
  exact ⟨hsize, hvals, hlast⟩

/-- Witness for C2 at `C = 2`, `N = 1`: pushing `0, 1, 2` leaves size 2 and
pops return `1, 2` then nothing, on both rings. -/
theorem c2_owning_push_evicts_oldest_fifo_witness :
    (ring.size (ring.pushAll 2 (ring.new Nat) (List.range 3)) = 2 ∧
     (ring.popN 2 (ring.pushAll 2 (ring.new Nat) (List.range 3)) 2).1 =
       (List.range' 1 2).map some ∧
     (ring.pop 2 (ring.popN 2 (ring.pushAll 2 (ring.new Nat) (List.range 3)) 2).2).1 =
       none) ∧
    (ring_buffer.size (ring_buffer.pushAll 2 (ring_buffer.new Nat) (List.range 3)) = 2 ∧
     (ring_buffer.popN 2 (ring_buffer.pushAll 2 (ring_buffer.new Nat) (List.range 3)) 2).1 =
       (List.range' 1 2).map some ∧
     (ring_buffer.pop 2
       (ring_buffer.popN 2 (ring_buffer.pushAll 2 (ring_buffer.new Nat) (List.range 3)) 2).2).1 =
       none) :=
  c2_owning_push_evicts_oldest_fifo 2 1 ⟨1, by decide⟩ (by decide)

namespace array

/-- State of `Array<T, C>` (src/array.rs): the backing buffer
`MaybeUninit<[T; C]>` as a cell map (`none` = uninitialized bytes) and the
length.  Reads (`ptr::read`) and destructor calls leave cell contents in
place, so cells are only overwritten, never erased. -/
structure Array (T : Type) where
  inner : Nat → Option T
  len : Nat

/-- `Array::new` (src/array.rs): uninitialized storage, `len = 0`. -/
def new (T : Type) : Array T := { inner := fun _ => none, len := 0 }

/-- `Array::push_unchecked` (src/array.rs): `ptr::write` at index `len`,
then `len += 1`. -/
def push_unchecked {T : Type} (s : Array T) (value : T) : Array T :=
  { inner := fun j => if j = s.len then some value else s.inner j,
    len := s.len + 1 }

/-- `Array::push` (src/array.rs): if `len == capacity()` return the value
back, else `push_unchecked` and return nothing. -/
def push {T : Type} (C : Nat) (s : Array T) (value : T) : Option T × Array T :=
  if s.len = C then (some value, s) else (none, push_unchecked s value)

/-- `Array::pop_unchecked` (src/array.rs): `ptr::read` at `len - 1`, then
`len -= 1`; the cell keeps its content. -/
def pop_unchecked {T : Type} (s : Array T) : Option T × Array T :=
  (s.inner (s.len - 1), { inner := s.inner, len := s.len - 1 })

/-- `Array::pop` (src/array.rs): nothing when `len == 0`, else
`pop_unchecked`. -/
def pop {T : Type} (s : Array T) : Option T × Array T :=
  match s.len with
  | 0 => (none, s)
  | _ + 1 => pop_unchecked s

/-- `Array::inner_truncate` (src/array.rs): for droppable `T` a loop of
`drop_in_place` from index `len - 1` down to `len` (leaving the bytes in
place), else just `self.len = len`; in both cases the model state keeps the
cells and sets the length. -/
def inner_truncate {T : Type} (s : Array T) (len : Nat) : Array T :=
  { inner := s.inner, len := len }

/-- `Array::truncate` (src/array.rs): no-op when `len >= self.len`. -/
def truncate {T : Type} (s : Array T) (len : Nat) : Array T :=
  if len ≥ s.len then s else inner_truncate s len

/-- `Array::clear` (src/array.rs): `truncate(0)`. -/
def clear {T : Type} (s : Array T) : Array T := truncate s 0

/-- `Array::swap_remove_unchecked` (src/array.rs): `ptr::swap` of the cells
at `index` and `len - 1`, then `pop_unchecked`. -/
def swap_remove_unchecked {T : Type} (s : Array T) (index : Nat) :
    Option T × Array T :=
  pop_unchecked
    { inner := fun j =>
        if j = index then s.inner (s.len - 1)
        else if j = s.len - 1 then s.inner index
        else s.inner j,
      len := s.len }

/-- `Array::swap_remove` (src/array.rs): `assert!(index < self.len)` then
`swap_remove_unchecked`; `none` models the panic (the assert precedes every
write, so a panicking call has mutated nothing). -/
def swap_remove {T : Type} (s : Array T) (index : Nat) :
    Option (Option T × Array T) :=
  if index < s.len then some (swap_remove_unchecked s index) else none

/-- `Array::as_slice` (src/array.rs): the live cells `[0, len)` in order. -/
def as_slice {T : Type} (s : Array T) : List (Option T) :=
  (List.range s.len).map s.inner

/-- `impl Clone for Array` (src/array.rs): copies `len` and then performs
`copy_to_nonoverlapping` of the whole `MaybeUninit<[T; C]>` buffer as a
single unit — a bitwise copy of every slot, live or not; `T::clone` is never
invoked. -/
def clone {T : Type} (s : Array T) : Array T :=
  { inner := s.inner, len := s.len }

/-- Modelled from the spec: "Equality and cloning compare/copy only the live
slice `[0, len)`" — a clone that copies the live cells and leaves the slots
`[len, C)` uninitialized.  This is what src/array.rs does NOT do; it is here
only to be compared against `clone` above. -/
def clone_spec {T : Type} (s : Array T) : Array T :=
  { inner := fun j => if j < s.len then s.inner j else none, len := s.len }

/-- `impl PartialEq for Array` (src/array.rs): slice equality of
`as_slice()`. -/
def eq {T : Type} (a b : Array T) : Prop := as_slice a = as_slice b

/-- A `for` loop of `push` calls, collecting each call's return value. -/
def push_list {T : Type} (C : Nat) (s : Array T) : List T → Array T × List (Option T)
  | [] => (s, [])
  | v :: vs =>
    let r := push C s v
    let rest := push_list C r.2 vs
    (rest.1, r.1 :: rest.2)

/-- Popping `k` times in a row, collecting the results. -/
def pop_n {T : Type} (s : Array T) : Nat → List (Option T) × Array T
  | 0 => ([], s)
  | k + 1 =>
    let r := pop s
    let rest := pop_n r.2 k
    (r.1 :: rest.1, rest.2)

end array

theorem array.pop_of_len_zero {T : Type} {s : array.Array T} (h : s.len = 0) :
    array.pop s = (none, s) := by
  unfold array.pop
  rw [h]

theorem array.pop_of_len_succ {T : Type} {s : array.Array T} {n : Nat}
    (h : s.len = n + 1) :
    array.pop s = array.pop_unchecked s := by
  unfold array.pop
  rw [h]

/-- Pushing a list that fits: every push is accepted, the length grows by the
list length, earlier cells are untouched and the new cells hold the list. -/
theorem array.push_list_spec {T : Type} (C : Nat) :
    ∀ (xs : List T) (s : array.Array T), s.len + xs.length ≤ C →
      (array.push_list C s xs).2 = List.replicate xs.length none ∧
      (array.push_list C s xs).1.len = s.len + xs.length ∧
      (∀ p, p < s.len → (array.push_list C s xs).1.inner p = s.inner p) ∧
      (∀ p, p < xs.length →
        (array.push_list C s xs).1.inner (s.len + p) = xs.get? p) := by
  intro xs
  induction xs with
  | nil =>
    intro s h
    exact ⟨rfl, by simp [array.push_list], fun p hp => rfl, fun p hp => absurd hp (by simp)⟩
  | cons v vs ih =>
    intro s h
    have hlt : s.len ≠ C := by
      simp only [List.length_cons] at h
      omega
    have hpush : array.push C s v = (none, array.push_unchecked s v) := by
      unfold array.push
      rw [if_neg hlt]
    have hlen1 : (array.push_unchecked s v).len = s.len + 1 := rfl
    obtain ⟨ih1, ih2, ih3, ih4⟩ := ih (array.push_unchecked s v)
      (by simp only [List.length_cons] at h; omega)
    simp only [array.push_list, hpush]
    refine ⟨by rw [ih1]; simp [List.replicate], by rw [ih2]; simp only [List.length_cons, hlen1]; omega, ?_, ?_⟩
    · intro p hp
      rw [ih3 p (by omega)]
      show (if p = s.len then some v else s.inner p) = s.inner p
      rw [if_neg (by omega)]
    · intro p hp
      match p with
      | 0 =>
        rw [Nat.add_zero]
        rw [ih3 s.len (by omega)]
        show (if s.len = s.len then some v else s.inner s.len) = (v :: vs).get? 0
        rw [if_pos rfl]
        rfl
      | q + 1 =>
        have : s.len + (q + 1) = (array.push_unchecked s v).len + q := by
          rw [hlen1]; omega
        rw [this, ih4 q (by simp only [List.length_cons] at hp; omega)]
        rfl

/-- Popping as many times as the array is long returns the live elements in
reverse storage order and empties the array. -/
theorem array.pop_n_of_filled {T : Type} :
    ∀ (xs : List T) (s : array.Array T), s.len = xs.length →
      (∀ p, p < xs.length → s.inner p = xs.get? p) →
      (array.pop_n s xs.length).1 = xs.reverse.map some ∧
      (array.pop_n s xs.length).2.len = 0 := by
  intro xs
  induction xs using List.reverseRecOn with
  | nil =>
    intro s h1 h2
    exact ⟨rfl, h1⟩
  | append_singleton xs v ih =>
    intro s h1 h2
    simp only [List.length_append, List.length_cons, List.length_nil] at h1 h2
    have hpop := array.pop_of_len_succ h1
    have hlast : s.inner (s.len - 1) = some v := by
      have := h2 xs.length (by omega)
      rw [List.get?_append_right (Nat.le_refl _)] at this
      simp at this
      rw [show s.len - 1 = xs.length by omega]
      simp [this]
    obtain ⟨ih1, ih2⟩ := ih { inner := s.inner, len := s.len - 1 }
      (by show s.len - 1 = xs.length; omega)
      (by
        intro p hp
        show s.inner p = xs.get? p
        rw [h2 p (by omega), List.get?_append (by omega)])
    simp only [List.length_append, List.length_cons, List.length_nil]
    constructor
    · show ((array.pop s).1 :: (array.pop_n (array.pop s).2 xs.length).1) = _
      rw [hpop]
      show s.inner (s.len - 1) ::
        (array.pop_n { inner := s.inner, len := s.len - 1 } xs.length).1 = _
      rw [hlast, ih1]
      simp
    · show (array.pop_n (array.pop s).2 xs.length).2.len = 0
      rw [hpop]
      exact ih2

/-- C6: `Array::push` on a full array (`len == C`) returns the input value
and changes nothing; on a non-full array it appends at index `len`,
increments the length, and returns nothing.  Consequently pushing a list of
`C` values into an empty array accepts every one (all results `none`,
final length `C`) and any further push is rejected with the state unchanged. -/
theorem c6_array_push_boundary (T : Type) (C : Nat) (s : array.Array T) (v : T)
    (xs : List T) (hxs : xs.length = C) :
    (s.len = C → array.push C s v = (some v, s)) ∧
    (s.len < C → array.push C s v =
      (none, { inner := fun j => if j = s.len then some v else s.inner j,
               len := s.len + 1 })) ∧
    (array.push_list C (array.new T) xs).2 = List.replicate C none ∧
    (array.push_list C (array.new T) xs).1.len = C ∧
    ∀ w, array.push C (array.push_list C (array.new T) xs).1 w =
      (some w, (array.push_list C (array.new T) xs).1) := by
  obtain ⟨h1, h2, h3, h4⟩ := array.push_list_spec C xs (array.new T)
    (by simp [array.new, hxs])
  have hlen : (array.push_list C (array.new T) xs).1.len = C := by
    rw [h2]
    simp [array.new, hxs]
  refine ⟨?_, ?_, by rw [h1, hxs], hlen, ?_⟩
  · intro h
    unfold array.push
    rw [if_pos h]
  · intro h
    unfold array.push
    rw [if_neg (by omega)]
    rfl
  · intro w
    unfold array.push
    rw [if_pos hlen]

/-- Witness for C6 at `C = 2` with pushes `[5, 6]` and rejected value 9. -/
theorem c6_array_push_boundary_witness :
    ((array.new Nat).len = 2 → array.push 2 (array.new Nat) 9 = (some 9, array.new Nat)) ∧
    ((array.new Nat).len < 2 → array.push 2 (array.new Nat) 9 =
      (none, { inner := fun j => if j = (array.new Nat).len then some 9
                 else (array.new Nat).inner j,
               len := (array.new Nat).len + 1 })) ∧
    (array.push_list 2 (array.new Nat) [5, 6]).2 = List.replicate 2 none ∧
    (array.push_list 2 (array.new Nat) [5, 6]).1.len = 2 ∧
    ∀ w, array.push 2 (array.push_list 2 (array.new Nat) [5, 6]).1 w =
      (some w, (array.push_list 2 (array.new Nat) [5, 6]).1) :=
  c6_array_push_boundary Nat 2 (array.new Nat) 9 [5, 6] (by decide)

/-- C7: for any list of at most `C` values pushed into an empty array, the
pops return exactly the values in reverse push order (LIFO), and afterwards
`pop` returns nothing. -/
theorem c7_array_lifo (T : Type) (C : Nat) (xs : List T) (h : xs.length ≤ C) :
    (array.pop_n (array.push_list C (array.new T) xs).1 xs.length).1 =
      xs.reverse.map some ∧
    (array.pop (array.pop_n (array.push_list C (array.new T) xs).1 xs.length).2).1 =
      none := by
  obtain ⟨h1, h2, h3, h4⟩ := array.push_list_spec C xs (array.new T)
    (by simp [array.new, h])
  have hlen : (array.push_list C (array.new T) xs).1.len = xs.length := by
    rw [h2]
    simp [array.new]
  have hfill : ∀ p, p < xs.length →
      (array.push_list C (array.new T) xs).1.inner p = xs.get? p := by
    intro p hp
    have hp4 := h4 p hp
    simpa [array.new] using hp4
  obtain ⟨hp1, hp2⟩ := array.pop_n_of_filled xs _ hlen hfill
  refine ⟨hp1, ?_⟩
  rw [array.pop_of_len_zero hp2]

/-- Witness for C7 at `C = 4` with pushes `[7, 8, 9]`. -/
theorem c7_array_lifo_witness :
    (array.pop_n (array.push_list 4 (array.new Nat) [7, 8, 9]).1 3).1 =
      [some 9, some 8, some 7] ∧
    (array.pop (array.pop_n (array.push_list 4 (array.new Nat) [7, 8, 9]).1 3).2).1 =
      none :=
  c7_array_lifo Nat 4 [7, 8, 9] (by decide)

/-- An array holding a stale cell: one push then one pop leaves `len = 0`
while the backing buffer still holds the pushed value at slot 0 (the pop
only reads). -/
def aStale : array.Array Nat := (array.pop (array.push 2 (array.new Nat) 5).2).2

/-- C8 counterexample: `clone` of `aStale` (an `Array<Nat, 2>` with `len = 0`)
copies the stale slot 0 verbatim instead of leaving the slots in
`[len, C) = [0, 2)` untouched, so cloning does not copy only the live slice:
the claim instance "every slot at index `>= len` of the clone is
uninitialized, as in a fresh array" is false, and `clone` differs from the
spec-modelled `clone_spec` on slot 0. -/
theorem c8_clone_counterexample :
    aStale.len = 0 ∧
    (array.clone aStale).inner 0 = some 5 ∧
    (array.clone_spec aStale).inner 0 = none ∧
    ¬ (∀ j, aStale.len ≤ j → j < 2 →
        (array.clone aStale).inner j = (array.new Nat).inner j) := by
  refine ⟨rfl, rfl, rfl, ?_⟩
  intro h
  have h0 := h 0 (Nat.le_refl 0) (by decide)
  simp [array.clone, aStale, array.pop, array.push, array.push_unchecked,
    array.pop_unchecked, array.new] at h0

/-- C8 amended: equality of arrays holds exactly when the live slices agree
(same length and elementwise equal cells; capacity plays no part), and
`clone` copies the length together with the entire backing buffer bitwise
(every slot, live or stale, without invoking the element clone), so in
particular the clone has the same length and an equal live slice. -/
theorem c8_array_eq_live_clone_bitwise (T : Type) (a b : array.Array T) :
    (array.eq a b ↔ a.len = b.len ∧ ∀ i, i < a.len → a.inner i = b.inner i) ∧
    (array.clone a).len = a.len ∧
    array.as_slice (array.clone a) = array.as_slice a ∧
    ∀ j, (array.clone a).inner j = a.inner j := by
  refine ⟨?_, rfl, rfl, fun j => rfl⟩
  unfold array.eq array.as_slice
  constructor
  · intro h
    have hlen : a.len = b.len := by
      have := congrArg List.length h
      simpa using this
    refine ⟨hlen, ?_⟩
    intro i hi
    have hg := congrArg (fun l => l.get? i) h
    simp only [List.get?_map, List.get?_range hi, List.get?_range (hlen ▸ hi),
      Option.map_some] at hg
    exact Option.some.inj hg
  · rintro ⟨hlen, hpt⟩
    rw [← hlen]
    exact List.map_congr_left fun i hi => hpt i (List.mem_range.mp hi)

/-- C9: `swap_remove(i)` with `i < len` returns the element at `i`, moves the
previous last element into position `i`, shortens the length by one and
leaves every other live element in place; with `i >= len` the assertion fires
(modelled as `none`) before anything is written. -/
theorem c9_swap_remove_spec (T : Type) (s : array.Array T) (i : Nat) :
    (i < s.len →
      ∃ r t, array.swap_remove s i = some (r, t) ∧
        r = s.inner i ∧
        t.len = s.len - 1 ∧
        (i ≠ s.len - 1 → t.inner i = s.inner (s.len - 1)) ∧
        (∀ j, j < s.len - 1 → j ≠ i → t.inner j = s.inner j)) ∧
    (s.len ≤ i → array.swap_remove s i = none) := by
  constructor
  · intro h
    unfold array.swap_remove
    rw [if_pos h]
    unfold array.swap_remove_unchecked array.pop_unchecked
    refine ⟨_, _, rfl, ?_, rfl, ?_, ?_⟩
    · show (if s.len - 1 = i then s.inner (s.len - 1)
        else if s.len - 1 = s.len - 1 then s.inner i else s.inner (s.len - 1)) =
        s.inner i
      by_cases hi : s.len - 1 = i
      · rw [if_pos hi, hi]
      · rw [if_neg hi, if_pos rfl]
    · intro hne
      show (if i = i then s.inner (s.len - 1)
        else if i = s.len - 1 then s.inner i else s.inner i) = s.inner (s.len - 1)
      rw [if_pos rfl]
    · intro j hj hji
      show (if j = i then s.inner (s.len - 1)
        else if j = s.len - 1 then s.inner i else s.inner j) = s.inner j
      rw [if_neg hji, if_neg (by omega)]
  · intro h
    unfold array.swap_remove
    rw [if_neg (by omega)]

/-- A concrete three-element array `[10, 20, 30]` for the C9 witness. -/
def arrEx : array.Array Nat :=
  { inner := fun j => if j = 0 then some 10 else if j = 1 then some 20
      else if j = 2 then some 30 else none,
    len := 3 }

/-- Witness for C9: removing index 0 of `[10, 20, 30]` and the panic case at
index 5. -/
theorem c9_swap_remove_spec_witness :
    (∃ r t, array.swap_remove arrEx 0 = some (r, t) ∧
      r = arrEx.inner 0 ∧
      t.len = arrEx.len - 1 ∧
      (0 ≠ arrEx.len - 1 → t.inner 0 = arrEx.inner (arrEx.len - 1)) ∧
      (∀ j, j < arrEx.len - 1 → j ≠ 0 → t.inner j = arrEx.inner j)) ∧
    array.swap_remove arrEx 5 = none :=
  ⟨(c9_swap_remove_spec Nat arrEx 0).1 (by decide),
   (c9_swap_remove_spec Nat arrEx 5).2 (by decide)⟩

namespace counted

/-- Instrumented state for the destructor-count claim: the `Array<T, C>`
storage of src/array.rs specialised to an element type with a counted
destructor.  Every element ever created gets a fresh identity (`nextId` is
the supply); `slots` holds the identity whose bytes occupy each cell (bytes
are never erased, exactly as in the code, so faulty bookkeeping would
double-count); `drops` counts destructor invocations per identity. -/
structure CState where
  slots : Nat → Option Nat
  len : Nat
  nextId : Nat
  drops : Nat → Nat

/-- `Array::new` plus a fresh identity supply and zero destructor counts. -/
def init : CState :=
  { slots := fun _ => none, len := 0, nextId := 0, drops := fun _ => 0 }

/-- `ptr::drop_in_place` of cell `i`: runs the destructor of the element
whose bytes occupy the cell; the bytes stay in place. -/
def dropSlot (st : CState) (i : Nat) : CState :=
  match st.slots i with
  | some d => { st with drops := fun j => if j = d then st.drops j + 1 else st.drops j }
  | none => st

/-- `Array::push_unchecked` of a freshly created element. -/
def push_fresh (st : CState) : CState :=
  { st with
    slots := fun j => if j = st.len then some st.nextId else st.slots j,
    len := st.len + 1,
    nextId := st.nextId + 1 }

/-- `Array::push` of a freshly created element: when `len == C` the value is
returned to the caller, which discards it — the element is created and then
destroyed exactly once outside the container. -/
def push (C : Nat) (st : CState) : CState :=
  if st.len = C then
    { st with
      nextId := st.nextId + 1,
      drops := fun j => if j = st.nextId then st.drops j + 1 else st.drops j }
  else
    push_fresh st

/-- One iteration of the `inner_truncate` loop: `drop_in_place` of the cell
at `len - 1`, then `len -= 1`. -/
def popDrop (st : CState) : CState :=
  { dropSlot st (st.len - 1) with len := st.len - 1 }

/-- `k` iterations of the `inner_truncate` loop. -/
def dropFrom (st : CState) : Nat → CState
  | 0 => st
  | k + 1 => dropFrom (popDrop st) k

/-- `Array::inner_truncate` for a droppable element type: the loop runs
`len - n` times (`truncate` only calls it with `n < len`). -/
def inner_truncate (st : CState) (n : Nat) : CState := dropFrom st (st.len - n)

/-- `Array::truncate`: no-op when `n >= len`. -/
def truncate (st : CState) (n : Nat) : CState :=
  if n ≥ st.len then st else inner_truncate st n

/-- `Array::drop`, i.e. `clear()`, i.e. `truncate(0)`. -/
def drop (st : CState) : CState := truncate st 0

/-- The grow loop of `resize`/`resize_default`: push `k` freshly created
elements (`T::default()` calls or `value.clone()` calls — either way each is
a brand new element). -/
def pushFreshN (st : CState) : Nat → CState
  | 0 => st
  | k + 1 => pushFreshN (push_fresh st) k

/-- `Array::resize_default(n)`: asserts `n <= C` (a panic aborts the run and
is modelled as a guard), grows with fresh defaults or truncates. -/
def resize_default (C : Nat) (st : CState) (n : Nat) : CState :=
  if n ≤ C then
    if st.len < n then pushFreshN st (n - st.len) else truncate st n
  else st

/-- `Array::resize(n, value)`: as `resize_default`, except the caller passes
an element by value which `resize` clones from and then drops on return.
That argument is created for the call and destroyed at its end with no
observable access in between, so its creation and destruction are recorded
together (the destructor-count increments commute). -/
def resize (C : Nat) (st : CState) (n : Nat) : CState :=
  if n ≤ C then
    if st.len < n then
      pushFreshN
        { st with
          nextId := st.nextId + 1,
          drops := fun j => if j = st.nextId then st.drops j + 1 else st.drops j }
        (n - st.len)
    else
      truncate
        { st with
          nextId := st.nextId + 1,
          drops := fun j => if j = st.nextId then st.drops j + 1 else st.drops j }
        n
  else st

/-- `ArrayConsumer::next` iterated `k` times from cursor `c`: each call with
`cursor < len` reads the cell at `cursor` out (the caller receives the
element and drops it) and advances the cursor; past the end it is a no-op. -/
def yieldN (st : CState) (c : Nat) : Nat → CState × Nat
  | 0 => (st, c)
  | k + 1 =>
    if c < st.len then yieldN (dropSlot st c) (c + 1) k else (st, c)

/-- The drain loop of `ArrayConsumer::drop`: `while let Some(_) = self.next()`
drops every remaining un-yielded element. -/
def drain (st : CState) (c : Nat) : CState := (yieldN st c (st.len - c)).1

/-- `ArrayConsumer::drop`: drain, then `set_len(0)`, then the `inner` field's
own `Array::drop` runs (a no-op on the now-empty array). -/
def consumer_drop (st : CState) (c : Nat) : CState :=
  counted.drop { drain st c with len := 0 }

/-- `array.into_iter()`, `k` calls of `next`, then dropping the iterator. -/
def into_iter_consume (st : CState) (k : Nat) : CState :=
  let r := yieldN st 0 k
  consumer_drop r.1 r.2

/-- One mutating call in the middle of the scenario of claim C5. -/
inductive Cmd where
  | push : Cmd
  | truncate : Nat → Cmd
  | resize : Nat → Cmd
  | resize_default : Nat → Cmd

def runCmd (C : Nat) (st : CState) : Cmd → CState
  | .push => push C st
  | .truncate n => truncate st n
  | .resize n => resize C st n
  | .resize_default n => resize_default C st n

def runCmds (C : Nat) (st : CState) (cs : List Cmd) : CState :=
  cs.foldl (runCmd C) st

/-- How the scenario ends: plain drop of the array, or consuming iteration
stopped after `k` elements followed by the iterator drop. -/
inductive Finish where
  | drop : Finish
  | into_iter : Nat → Finish

def runFinish (st : CState) : Finish → CState
  | .drop => counted.drop st
  | .into_iter k => into_iter_consume st k

def runScenario (C : Nat) (cs : List Cmd) (f : Finish) : CState :=
  runFinish (runCmds C init cs) f

/-- The linearity invariant during consuming iteration: `done` are the
identities already yielded to the caller (each destroyed exactly once),
`todo` the identities still owned by the container (not destroyed yet), in
storage order; identities no longer in the buffer were destroyed exactly
once; identities not yet created were never destroyed. -/
structure GoodIter (st : CState) (done todo : List Nat) : Prop where
  len_eq : st.len = done.length + todo.length
  slots_eq : ∀ p, p < done.length + todo.length → st.slots p = (done ++ todo).get? p
  nodup : (done ++ todo).Nodup
  todo_live : ∀ d ∈ todo, d < st.nextId ∧ st.drops d = 0
  done_dropped : ∀ d ∈ done, d < st.nextId ∧ st.drops d = 1
  out_dropped : ∀ d, d < st.nextId → d ∉ done ++ todo → st.drops d = 1
  fresh_zero : ∀ d, st.nextId ≤ d → st.drops d = 0

/-- The invariant outside iteration: nothing yielded yet. -/
def Good (st : CState) (L : List Nat) : Prop := GoodIter st [] L

end counted

theorem counted.good_init : counted.Good counted.init [] := by
  refine ⟨rfl, ?_, List.nodup_nil, ?_, ?_, ?_, ?_⟩ <;> simp [counted.init]

theorem counted.dropSlot_of_some {st : counted.CState} {i d : Nat}
    (h : st.slots i = some d) :
    counted.dropSlot st i =
      { st with drops := fun j => if j = d then st.drops j + 1 else st.drops j } := by
  unfold counted.dropSlot
  rw [h]

/-- Creating a fresh element and destroying it immediately (a rejected push,
or the by-value `resize` argument) keeps the invariant. -/
theorem counted.good_retire_fresh {st : counted.CState} {L : List Nat}
    (h : counted.Good st L) :
    counted.Good
      { st with
        nextId := st.nextId + 1,
        drops := fun j => if j = st.nextId then st.drops j + 1 else st.drops j } L := by
  obtain ⟨h1, h2, h3, h4, h5, h6, h7⟩ := h
  refine ⟨h1, h2, h3, ?_, ?_, ?_, ?_⟩
  · intro d hd
    obtain ⟨ha, hb⟩ := h4 d hd
    refine ⟨?_, ?_⟩
    · show d < st.nextId + 1
      omega
    · show (if d = st.nextId then st.drops d + 1 else st.drops d) = 0
      rw [if_neg (by omega)]
      exact hb
  · intro d hd
    exact absurd hd (List.not_mem_nil d)
  · intro d hd hmem
    have hd' : d < st.nextId + 1 := hd
    show (if d = st.nextId then st.drops d + 1 else st.drops d) = 1
    by_cases hdn : d = st.nextId
    · rw [if_pos hdn, hdn, h7 st.nextId (Nat.le_refl _)]
    · rw [if_neg hdn]
      exact h6 d (by omega) hmem
  · intro d hd
    have hd' : st.nextId + 1 ≤ d := hd
    show (if d = st.nextId then st.drops d + 1 else st.drops d) = 0
    rw [if_neg (by omega)]
    exact h7 d (by omega)

/-- An accepted push of a fresh element appends its identity to the live list. -/
theorem counted.good_push_fresh {st : counted.CState} {L : List Nat}
    (h : counted.Good st L) :
    counted.Good (counted.push_fresh st) (L ++ [st.nextId]) := by
  obtain ⟨h1, h2, h3, h4, h5, h6, h7⟩ := h
  simp only [List.nil_append, List.length_nil, Nat.zero_add] at h1 h2 h3 h6
  refine ⟨?_, ?_, ?_, ?_, ?_, ?_, ?_⟩
  · show st.len + 1 = [].length + (L ++ [st.nextId]).length
    simp only [List.length_nil, List.length_append, List.length_cons]
    omega
  · intro p hp
    have hp' : p < 0 + (L ++ [st.nextId]).length := hp
    simp only [List.length_append, List.length_cons, List.length_nil] at hp'
    show (if p = st.len then some st.nextId else st.slots p) =
      (([] : List Nat) ++ (L ++ [st.nextId])).get? p
    simp only [List.nil_append]
    by_cases hpl : p = st.len
    · rw [if_pos hpl, show p = L.length by omega,
        List.get?_append_right (Nat.le_refl _)]
      simp
    · have hplt : p < L.length := by omega
      rw [if_neg hpl, List.get?_append hplt]
      exact h2 p hplt
  · show ([] ++ (L ++ [st.nextId])).Nodup
    simp only [List.nil_append]
    rw [List.nodup_append]
    refine ⟨h3, List.nodup_singleton _, ?_⟩
    intro a haL hax
    simp only [List.mem_singleton] at hax
    have := (h4 a haL).1
    omega
  · intro d hd
    rw [List.mem_append, List.mem_singleton] at hd
    rcases hd with hd | hd
    · obtain ⟨ha, hb⟩ := h4 d hd
      refine ⟨?_, ?_⟩
      · show d < st.nextId + 1
        omega
      · show st.drops d = 0
        exact hb
    · subst hd
      refine ⟨?_, ?_⟩
      · show st.nextId < st.nextId + 1
        omega
      · show st.drops st.nextId = 0
        exact h7 st.nextId (Nat.le_refl _)
  · intro d hd
    exact absurd hd (List.not_mem_nil d)
  · intro d hd hmem
    have hd' : d < st.nextId + 1 := hd
    simp only [List.nil_append, List.mem_append, List.mem_singleton] at hmem
    push_neg at hmem
    show st.drops d = 1
    exact h6 d (by omega) hmem.1
  · intro d hd
    have hd' : st.nextId + 1 ≤ d := hd
    show st.drops d = 0
    exact h7 d (by omega)

theorem counted.good_push {C : Nat} {st : counted.CState} {L : List Nat}
    (h : counted.Good st L) :
    ∃ M, counted.Good (counted.push C st) M := by
  unfold counted.push
  by_cases hf : st.len = C
  · rw [if_pos hf]
    exact ⟨L, counted.good_retire_fresh h⟩
  · rw [if_neg hf]
    exact ⟨L ++ [st.nextId], counted.good_push_fresh h⟩

/-- One `inner_truncate` iteration destroys exactly the last live element. -/
theorem counted.good_popDrop {st : counted.CState} {L : List Nat} {d : Nat}
    (h : counted.Good st (L ++ [d])) :
    counted.Good (counted.popDrop st) L := by
  obtain ⟨h1, h2, h3, h4, h5, h6, h7⟩ := h
  simp only [List.nil_append, List.length_nil, Nat.zero_add] at h1 h2 h3 h6
  have hlen : st.len = L.length + 1 := by
    simp only [List.length_append, List.length_cons, List.length_nil] at h1
    omega
  have hslot : st.slots (st.len - 1) = some d := by
    have h2L := h2 L.length
      (by simp only [List.length_append, List.length_cons, List.length_nil]; omega)
    rw [List.get?_append_right (Nat.le_refl _)] at h2L
    simp only [Nat.sub_self, List.get?_cons_zero] at h2L
    rw [show st.len - 1 = L.length by omega]
    exact h2L
  have hd0 : st.drops d = 0 := (h4 d (by simp)).2
  have hdlt : d < st.nextId := (h4 d (by simp)).1
  rw [List.nodup_append] at h3
  have hdnotL : d ∉ L := fun hmem => h3.2.2 hmem (by simp)
  show counted.Good
    { counted.dropSlot st (st.len - 1) with len := st.len - 1 } L
  rw [counted.dropSlot_of_some hslot]
  show counted.Good
    { slots := st.slots, len := st.len - 1, nextId := st.nextId,
      drops := fun j => if j = d then st.drops j + 1 else st.drops j } L
  refine ⟨?_, ?_, ?_, ?_, ?_, ?_, ?_⟩
  · show st.len - 1 = [].length + L.length
    simp only [List.length_nil]
    omega
  · intro p hp
    have hp' : p < 0 + L.length := hp
    have hplt : p < L.length := by omega
    show st.slots p = ([] ++ L).get? p
    simp only [List.nil_append]
    rw [h2 p (by simp only [List.length_append, List.length_cons, List.length_nil]; omega),
      List.get?_append hplt]
  · show ([] ++ L).Nodup
    simpa using h3.1
  · intro e he
    obtain ⟨ha, hb⟩ := h4 e (by simp [he])
    refine ⟨ha, ?_⟩
    show (if e = d then st.drops e + 1 else st.drops e) = 0
    rw [if_neg (by intro heq; subst heq; exact hdnotL he)]
    exact hb
  · intro e he
    exact absurd he (List.not_mem_nil e)
  · intro e he hmem
    have he' : e < st.nextId := he
    have hmem' : e ∉ L := by simpa using hmem
    show (if e = d then st.drops e + 1 else st.drops e) = 1
    by_cases hed : e = d
    · rw [if_pos hed, hed, hd0]
    · rw [if_neg hed]
      exact h6 e he' (by simp [hmem', hed])
  · intro e he
    have he' : st.nextId ≤ e := he
    show (if e = d then st.drops e + 1 else st.drops e) = 0
    rw [if_neg (by omega)]
    exact h7 e he'

theorem counted.good_dropFrom :
    ∀ (L2 L1 : List Nat) (st : counted.CState),
      counted.Good st (L1 ++ L2) →
      counted.Good (counted.dropFrom st L2.length) L1 := by
  intro L2
  induction L2 using List.reverseRecOn with
  | nil =>
    intro L1 st h
    simpa using h
  | append_singleton L2 d ih =>
    intro L1 st h
    rw [show (L2 ++ [d]).length = L2.length + 1 by simp]
    show counted.Good (counted.dropFrom (counted.popDrop st) L2.length) L1
    apply ih
    apply counted.good_popDrop
    rw [List.append_assoc]
    exact h

theorem counted.good_truncate {st : counted.CState} {L : List Nat} (n : Nat)
    (h : counted.Good st L) :
    ∃ M, counted.Good (counted.truncate st n) M := by
  unfold counted.truncate
  by_cases hge : n ≥ st.len
  · rw [if_pos hge]
    exact ⟨L, h⟩
  · rw [if_neg hge]
    unfold counted.inner_truncate
    have hlen : st.len = L.length := by
      obtain ⟨h1, _, _, _, _, _, _⟩ := h
      simpa using h1
    refine ⟨L.take n, ?_⟩
    have hklen : st.len - n = (L.drop n).length := by
      simp only [List.length_drop]
      omega
    rw [hklen]
    apply counted.good_dropFrom
    rw [List.take_append_drop]
    exact h

theorem counted.good_pushFreshN :
    ∀ (k : Nat) (st : counted.CState) (L : List Nat), counted.Good st L →
      ∃ M, counted.Good (counted.pushFreshN st k) M := by
  intro k
  induction k with
  | zero =>
    intro st L h
    exact ⟨L, h⟩
  | succ k ih =>
    intro st L h
    exact ih (counted.push_fresh st) (L ++ [st.nextId]) (counted.good_push_fresh h)

theorem counted.good_resize_default {C : Nat} {st : counted.CState} {L : List Nat}
    (n : Nat) (h : counted.Good st L) :
    ∃ M, counted.Good (counted.resize_default C st n) M := by
  unfold counted.resize_default
  by_cases h1 : n ≤ C
  · rw [if_pos h1]
    by_cases h2 : st.len < n
    · rw [if_pos h2]
      exact counted.good_pushFreshN _ st L h
    · rw [if_neg h2]
      exact counted.good_truncate n h
  · rw [if_neg h1]
    exact ⟨L, h⟩

theorem counted.good_resize {C : Nat} {st : counted.CState} {L : List Nat}
    (n : Nat) (h : counted.Good st L) :
    ∃ M, counted.Good (counted.resize C st n) M := by
  unfold counted.resize
  by_cases h1 : n ≤ C
  · rw [if_pos h1]
    have h' := counted.good_retire_fresh h
    by_cases h2 : st.len < n
    · rw [if_pos h2]
      exact counted.good_pushFreshN _ _ L h'
    · rw [if_neg h2]
      exact counted.good_truncate n h'
  · rw [if_neg h1]
    exact ⟨L, h⟩

theorem counted.good_runCmd {C : Nat} {st : counted.CState} {L : List Nat}
    (c : counted.Cmd) (h : counted.Good st L) :
    ∃ M, counted.Good (counted.runCmd C st c) M := by
  cases c with
  | push => exact counted.good_push h
  | truncate n => exact counted.good_truncate n h
  | resize n => exact counted.good_resize n h
  | resize_default n => exact counted.good_resize_default n h

theorem counted.good_runCmds {C : Nat} :
    ∀ (cs : List counted.Cmd) (st : counted.CState) (L : List Nat),
      counted.Good st L → ∃ M, counted.Good (counted.runCmds C st cs) M := by
  intro cs
  induction cs with
  | nil =>
    intro st L h
    exact ⟨L, h⟩
  | cons c cs ih =>
    intro st L h
    obtain ⟨M, hM⟩ := counted.good_runCmd c h
    exact ih (counted.runCmd C st c) M hM

/-- Yielding the next element to the caller (who drops it) moves its identity
from `todo` to `done`. -/
theorem counted.good_yield_step {st : counted.CState} {done todo : List Nat}
    {t : Nat} (h : counted.GoodIter st done (t :: todo)) :
    counted.GoodIter (counted.dropSlot st done.length) (done ++ [t]) todo := by
  obtain ⟨h1, h2, h3, h4, h5, h6, h7⟩ := h
  have hslot : st.slots done.length = some t := by
    have h2L := h2 done.length (by simp)
    rw [List.get?_append_right (Nat.le_refl _)] at h2L
    simpa using h2L
  have ht := h4 t (by simp)
  have h3' := h3
  rw [List.nodup_append] at h3'
  have htnotdone : t ∉ done := fun hmem => h3'.2.2 hmem (by simp)
  have htnottodo : t ∉ todo := (List.nodup_cons.mp h3'.2.1).1
  rw [counted.dropSlot_of_some hslot]
  refine ⟨?_, ?_, ?_, ?_, ?_, ?_, ?_⟩
  · show st.len = (done ++ [t]).length + todo.length
    simp only [List.length_append, List.length_cons, List.length_nil] at h1 ⊢
    omega
  · intro p hp
    simp only [List.length_append, List.length_cons, List.length_nil] at hp
    show st.slots p = ((done ++ [t]) ++ todo).get? p
    rw [List.append_assoc]
    exact h2 p (by simp only [List.length_append, List.length_cons]; omega)
  · show ((done ++ [t]) ++ todo).Nodup
    rw [List.append_assoc]
    exact h3
  · intro d hd
    obtain ⟨ha, hb⟩ := h4 d (by simp [hd])
    refine ⟨ha, ?_⟩
    show (if d = t then st.drops d + 1 else st.drops d) = 0
    rw [if_neg (by intro heq; subst heq; exact htnottodo hd)]
    exact hb
  · intro d hd
    rw [List.mem_append, List.mem_singleton] at hd
    rcases hd with hd | hd
    · obtain ⟨ha, hb⟩ := h5 d hd
      refine ⟨ha, ?_⟩
      show (if d = t then st.drops d + 1 else st.drops d) = 1
      rw [if_neg (by intro heq; subst heq; exact htnotdone hd)]
      exact hb
    · subst hd
      refine ⟨ht.1, ?_⟩
      show (if d = d then st.drops d + 1 else st.drops d) = 1
      rw [if_pos rfl, ht.2]
  · intro d hd hmem
    have hdne : d ≠ t := by
      intro heq
      subst heq
      exact hmem (by rw [List.append_assoc]; simp)
    show (if d = t then st.drops d + 1 else st.drops d) = 1
    rw [if_neg hdne]
    refine h6 d hd ?_
    intro hmem2
    exact hmem (by rw [List.append_assoc]; exact hmem2)
  · intro d hd
    have hd' : st.nextId ≤ d := hd
    show (if d = t then st.drops d + 1 else st.drops d) = 0
    rw [if_neg (by intro heq; subst heq; have := ht.1; omega)]
    exact h7 d hd'

/-- Stopping consumption after `k` calls of `next` lands in a well-formed
intermediate iterator state. -/
theorem counted.yieldN_partial :
    ∀ (k : Nat) (done todo : List Nat) (st : counted.CState),
      counted.GoodIter st done todo →
      ∃ done2 todo2, done2 ++ todo2 = done ++ todo ∧
        (counted.yieldN st done.length k).2 = done2.length ∧
        counted.GoodIter (counted.yieldN st done.length k).1 done2 todo2 := by
  intro k
  induction k with
  | zero =>
    intro done todo st h
    exact ⟨done, todo, rfl, rfl, h⟩
  | succ k ih =>
    intro done todo st h
    cases todo with
    | nil =>
      have hlen : ¬ done.length < st.len := by
        have := h.len_eq
        simp only [List.length_nil] at this
        omega
      refine ⟨done, [], by simp, ?_, ?_⟩
      · show (counted.yieldN st done.length (k + 1)).2 = done.length
        simp only [counted.yieldN, if_neg hlen]
      · show counted.GoodIter (counted.yieldN st done.length (k + 1)).1 done []
        simp only [counted.yieldN, if_neg hlen]
        exact h
    | cons t todo' =>
      have hlt : done.length < st.len := by
        have := h.len_eq
        simp only [List.length_cons] at this
        omega
      have hstep := counted.good_yield_step h
      obtain ⟨d2, t2, ha, hb, hc⟩ := ih (done ++ [t]) todo' (counted.dropSlot st done.length) hstep
      rw [show (done ++ [t]).length = done.length + 1 by simp] at hb hc
      refine ⟨d2, t2, ?_, ?_, ?_⟩
      · rw [ha]
        simp
      · show (counted.yieldN st done.length (k + 1)).2 = d2.length
        simp only [counted.yieldN, if_pos hlt]
        exact hb
      · show counted.GoodIter (counted.yieldN st done.length (k + 1)).1 d2 t2
        simp only [counted.yieldN, if_pos hlt]
        exact hc

/-- Draining the remaining `todo` elements yields and destroys each exactly
once. -/
theorem counted.yieldN_all :
    ∀ (todo done : List Nat) (st : counted.CState),
      counted.GoodIter st done todo →
      counted.GoodIter (counted.yieldN st done.length todo.length).1 (done ++ todo) [] ∧
      (counted.yieldN st done.length todo.length).2 = done.length + todo.length := by
  intro todo
  induction todo with
  | nil =>
    intro done st h
    constructor
    · show counted.GoodIter st (done ++ []) []
      simpa using h
    · show done.length = done.length + 0
      omega
  | cons t todo' ih =>
    intro done st h
    have hlt : done.length < st.len := by
      have := h.len_eq
      simp only [List.length_cons] at this
      omega
    have hstep := counted.good_yield_step h
    obtain ⟨ih1, ih2⟩ := ih (done ++ [t]) (counted.dropSlot st done.length) hstep
    rw [show (done ++ [t]).length = done.length + 1 by simp] at ih1 ih2
    constructor
    · show counted.GoodIter
        (counted.yieldN st done.length (todo'.length + 1)).1 (done ++ t :: todo') []
      simp only [counted.yieldN, if_pos hlt]
      rw [show done ++ t :: todo' = (done ++ [t]) ++ todo' by simp]
      exact ih1
    · show (counted.yieldN st done.length (todo'.length + 1)).2 =
        done.length + (todo'.length + 1)
      simp only [counted.yieldN, if_pos hlt]
      omega

theorem counted.good_drop {st : counted.CState} {L : List Nat}
    (h : counted.Good st L) :
    counted.Good (counted.drop st) [] := by
  unfold counted.drop counted.truncate
  have hlen : st.len = L.length := by
    have := h.len_eq
    simpa using this
  by_cases h0 : 0 ≥ st.len
  · rw [if_pos h0]
    have hnil : L = [] := List.length_eq_zero.mp (by omega)
    exact hnil ▸ h
  · rw [if_neg h0]
    unfold counted.inner_truncate
    rw [show st.len - 0 = L.length by omega]
    exact counted.good_dropFrom L [] st h

theorem counted.good_into_iter {st : counted.CState} {L : List Nat} (k : Nat)
    (h : counted.Good st L) :
    counted.Good (counted.into_iter_consume st k) [] := by
  unfold counted.into_iter_consume counted.consumer_drop counted.drain
  obtain ⟨d2, t2, ha, hb, hc⟩ := counted.yieldN_partial k [] L st h
  simp only [List.length_nil] at hb hc
  have hlen1 : (counted.yieldN st 0 k).1.len = d2.length + t2.length := by
    have := hc.len_eq
    simp only [List.length_append] at this
    omega
  obtain ⟨hall, hcur⟩ := counted.yieldN_all t2 d2 (counted.yieldN st 0 k).1 hc
  show counted.Good
    (counted.drop
      { (counted.yieldN (counted.yieldN st 0 k).1 (counted.yieldN st 0 k).2
          ((counted.yieldN st 0 k).1.len - (counted.yieldN st 0 k).2)).1 with
        len := 0 }) []
  rw [hb, hlen1, show d2.length + t2.length - d2.length = t2.length by omega]
  have hdrop : counted.drop
      { (counted.yieldN (counted.yieldN st 0 k).1 d2.length t2.length).1 with len := 0 } =
      { (counted.yieldN (counted.yieldN st 0 k).1 d2.length t2.length).1 with len := 0 } := by
    unfold counted.drop counted.truncate
    rw [if_pos (Nat.le_refl 0)]
  rw [hdrop]
  obtain ⟨g1, g2, g3, g4, g5, g6, g7⟩ := hall
  refine ⟨rfl, ?_, List.nodup_nil, ?_, ?_, ?_, ?_⟩
  · intro p hp
    simp only [List.length_nil] at hp
    omega
  · intro d hd
    exact absurd hd (List.not_mem_nil d)
  · intro d hd
    exact absurd hd (List.not_mem_nil d)
  · intro d hd hmem
    show (counted.yieldN (counted.yieldN st 0 k).1 d2.length t2.length).1.drops d = 1
    by_cases hm2 : d ∈ (d2 ++ t2) ++ []
    · rw [List.append_nil] at hm2
      exact (g5 d hm2).2
    · exact g6 d hd hm2
  · intro d hd
    exact g7 d hd

/-- C5: for an element type with a counted destructor, after any sequence of
`push`, `truncate`, `resize`, `resize_default` calls on `Array<T, C>`
followed by either dropping the array or consuming iteration stopped at any
point and then dropping the iterator, every element ever created has had its
destructor run exactly once — never more (no double drop of yielded, removed
or remaining elements), never less (no leak).  Hence the total number of
destructor invocations equals the number of elements ever logically removed
plus the number still held when the final drop ran. -/
theorem c5_destructor_runs_exactly_once (C : Nat) (cs : List counted.Cmd)
    (f : counted.Finish) :
    ∀ i, (counted.runScenario C cs f).drops i =
      if i < (counted.runScenario C cs f).nextId then 1 else 0 := by
  obtain ⟨M, hM⟩ := counted.good_runCmds cs counted.init [] counted.good_init
  have hfin : counted.Good (counted.runScenario C cs f) [] := by
    unfold counted.runScenario counted.runFinish
    cases f with
    | drop => exact counted.good_drop hM
    | into_iter k => exact counted.good_into_iter k hM
  obtain ⟨h1, h2, h3, h4, h5, h6, h7⟩ := hfin
  intro i
  by_cases hi : i < (counted.runScenario C cs f).nextId
  · rw [if_pos hi]
    exact h6 i hi (List.not_mem_nil i)
  · rw [if_neg hi]
    exact h7 i (by omega)
